import Mathlib

/-!
# Verification of the nostr-mini-twitter relay aggregation layer

Shallow embedding of the relay pool / event aggregation code
(`src/lib/nostr/events.ts`, `src/lib/nostr/relays.ts`, `src/lib/nostr/hooks.ts`,
`src/lib/nostr/keys.ts`) together with proofs about the properties the
specification states for it.

Events are modelled as records over `Nat` timestamps and `String` ids;
JavaScript promise outcomes are modelled by explicit outcome parameters
(`Except`/`Bool`), and thrown exceptions by `Except.error` results.
-/

/-- A Nostr event as used by the client: `id` is the content digest,
`created_at` the author-claimed Unix timestamp. -/
structure NEvent where
  id : String
  pubkey : String
  created_at : Nat
  kind : Nat
  content : String
deriving DecidableEq, Repr

/-! ## Sorting by `created_at` descending

`events.sort((a, b) => b.created_at - a.created_at)` in JavaScript is a
stable sort under the comparator: among equal timestamps the original
(arrival) order is preserved.  We embed it as a stable insertion sort:
`insertDesc` walks past strictly-greater timestamps, so an element inserted
earlier (appearing earlier in the input) stays before later equal-timestamp
elements. -/

def insertDesc (e : NEvent) : List NEvent → List NEvent
  | [] => [e]
  | x :: xs =>
    if e.created_at < x.created_at then x :: insertDesc e xs
    else e :: x :: xs

def sortByCreatedAtDesc : List NEvent → List NEvent
  | [] => []
  | e :: es => insertDesc e (sortByCreatedAtDesc es)

/-- `fetchUserMetadata` (events.ts:266-282), modelled from the point where the
fan-out query has produced the candidate list: it sorts the candidates by
`created_at` descending (`events.sort((a, b) => b.created_at - a.created_at)`)
and returns the first element, or `null` for an empty list. -/
def fetchUserMetadata (events : List NEvent) : Option NEvent :=
  (sortByCreatedAtDesc events).head?

/-- `fetchEvents` (events.ts:184-198), modelled over the outcome of the
underlying pool query: on success it returns the events as-is, and the
`catch` branch turns any failure (including "all relays unreachable")
into an empty list.  The function's only output is this list. -/
def fetchEvents (querySyncResult : Except String (List NEvent)) : List NEvent :=
  match querySyncResult with
  | Except.ok evs => evs
  | Except.error _ => []

/-! ## The merge step of `useNostrEvents` (hooks.ts:102-118)

`applyPendingEvents` concatenates the previous and pending events, keeps the
first occurrence of each `id` (the `filter`/`findIndex` idiom), and sorts by
`created_at` descending. -/

/-- Keeps the first occurrence of each `id`, exactly as
`allEvents.filter((event, index, self) => index === self.findIndex(e => e.id === event.id))`
does. -/
def dedupById : List NEvent → List NEvent
  | [] => []
  | e :: es => e :: (dedupById es).filter (fun x => x.id ≠ e.id)

/-- The `setEvents` updater body of `applyPendingEvents` (hooks.ts:104-112). -/
def mergeEvents (prev pending : List NEvent) : List NEvent :=
  sortByCreatedAtDesc (dedupById (prev ++ pending))

/-- `applyPendingEvents` (hooks.ts:102-118): a no-op when there are no
pending events, otherwise the merge above. -/
def applyPendingEvents (prev pending : List NEvent) : List NEvent :=
  if 0 < pending.length then mergeEvents prev pending else prev

/-! ## `connectToRelays` (relays.ts:69-89)

Each URL's connection attempt is mapped to a promise whose `catch` turns an
individual failure into `null`; `Promise.all` of never-rejecting promises
settles with the list, and `filter(Boolean)` drops the `null`s.  The
per-relay outcome is abstracted by the `ok` predicate. -/

def connectToRelays (urls : List String) (ok : String → Bool) : List String :=
  (urls.map (fun u => if ok u then some u else none)).filterMap id

/-! ## Saved relay list (relays.ts:137-152) -/

/-- `addRelay` (relays.ts:137-142): appends the URL only when it is not
already in the saved list. -/
def addRelay (saved : List String) (url : String) : List String :=
  if url ∈ saved then saved else saved ++ [url]

/-- The relay-layer state touched by `removeRelay`: the persisted URL list and
the keys of the `activeRelays` connection map. -/
structure RelayState where
  saved : List String
  active : List String
deriving DecidableEq, Repr

/-- `removeRelay` (relays.ts:148-152): filters the URL out of the saved list
and `disconnectFromRelay` deletes its entry from the connection map. -/
def removeRelay (st : RelayState) (url : String) : RelayState :=
  { saved := st.saved.filter (fun r => r ≠ url),
    active := st.active.filter (fun r => r ≠ url) }

/-! ## Event construction (events.ts:13-38, 115-147, 310-349)

`getPrivateKey()` is modelled by an `Option String`; everything inside the
`try` block (hex decoding of the key plus `finalizeEvent`, and for
`updateUserMetadata` also the publish) is modelled by an `Except` outcome
parameter.  A thrown exception is `Except.error`; the caught branch that
`return null`s is `Except.ok none`. -/

def createNoteEvent (privateKey : Option String)
    (signing : Except String NEvent) : Except String (Option NEvent) :=
  match privateKey with
  | none => Except.error "No private key available"
  | some _ =>
    match signing with
    | Except.ok ev => Except.ok (some ev)
    | Except.error _ => Except.ok none

def createReactionEvent (privateKey : Option String)
    (signing : Except String NEvent) : Except String (Option NEvent) :=
  match privateKey with
  | none => Except.error "No private key available"
  | some _ =>
    match signing with
    | Except.ok ev => Except.ok (some ev)
    | Except.error _ => Except.ok none

def updateUserMetadata (privateKey : Option String)
    (signingAndPublish : Except String NEvent) : Except String (Option NEvent) :=
  match privateKey with
  | none => Except.error "No private key available"
  | some _ =>
    match signingAndPublish with
    | Except.ok ev => Except.ok (some ev)
    | Except.error _ => Except.ok none

/-- The `DEFAULT_RELAYS` bootstrap list (relays.ts:8-13). -/
def DEFAULT_RELAYS : List String :=
  ["wss://relay.damus.io", "wss://nos.lol", "wss://relay.nostr.band", "wss://relay.snort.social"]

/-! ## Helper lemmas about the stable descending sort -/

theorem mem_insertDesc (e x : NEvent) (l : List NEvent) :
    x ∈ insertDesc e l ↔ x = e ∨ x ∈ l := by
  induction l with
  | nil => simp [insertDesc]
  | cons y ys ih =>
    simp only [insertDesc]
    split
    · simp only [List.mem_cons, ih]
      tauto
    · simp only [List.mem_cons]

theorem sortDesc_head_max (l : List NEvent) (h : l ≠ []) :
    ∃ e, (sortByCreatedAtDesc l).head? = some e ∧ e ∈ l ∧
      ∀ x ∈ l, x.created_at ≤ e.created_at := by
  induction l with
  | nil => exact absurd rfl h
  | cons a as ih =>
    cases as with
    | nil =>
      refine ⟨a, ?_, by simp, ?_⟩
      · simp [sortByCreatedAtDesc, insertDesc]
      · intro x hx
        simp only [List.mem_singleton] at hx
        simp [hx]
    | cons b bs =>
      obtain ⟨m, hm1, hm2, hm3⟩ := ih (by simp)
      cases hs : sortByCreatedAtDesc (b :: bs) with
      | nil => rw [hs] at hm1; simp at hm1
      | cons m' t =>
        rw [hs] at hm1
        simp only [List.head?_cons, Option.some.injEq] at hm1
        subst hm1
        show ∃ e, (insertDesc a (sortByCreatedAtDesc (b :: bs))).head? = some e ∧ _
        rw [hs]
        simp only [insertDesc]
        split
        · refine ⟨m', by simp, List.mem_cons_of_mem a hm2, ?_⟩
          intro x hx
          rcases List.mem_cons.mp hx with rfl | hx
          · omega
          · exact hm3 x hx
        · refine ⟨a, by simp, List.mem_cons_self a _, ?_⟩
          intro x hx
          rcases List.mem_cons.mp hx with rfl | hx
          · exact le_refl _
          · have := hm3 x hx
            omega

/-! ## Claim C1: replaceable-event resolution in `fetchUserMetadata` -/

/-- Two distinct candidate metadata events with identical `created_at`;
the spec's tie-break by lexicographically largest id would pick
`metaEventB` regardless of order. -/
def metaEventA : NEvent :=
  { id := "a", pubkey := "alice", created_at := 100, kind := 0, content := "older arrival" }

def metaEventB : NEvent :=
  { id := "b", pubkey := "alice", created_at := 100, kind := 0, content := "newer arrival" }

/-- **C1 counterexample**: `fetchUserMetadata` breaks `created_at` ties by
arrival order (the JavaScript sort is stable and has no id comparison), so
the two arrival orders of the same candidate set give different winners, and
in the first order the winner is the lexicographically *smaller* id `"a"`,
contradicting both the determinism and the id tie-break the claim states. -/
theorem C1_counterexample :
    fetchUserMetadata [metaEventA, metaEventB] = some metaEventA ∧
    fetchUserMetadata [metaEventB, metaEventA] = some metaEventB ∧
    metaEventA ≠ metaEventB := by
  refine ⟨rfl, rfl, by decide⟩

/-- **C1 (amended)**: for every nonempty set of candidate metadata events,
`fetchUserMetadata` returns an event with the maximum `created_at`; when two
distinct events have identical `created_at`, the winner is the one arriving
first among the tied events (stable sort), so the result depends on arrival
order and is not the id-lexicographic tie-break the spec states. -/
theorem C1_fetchUserMetadata_max_created_at (l : List NEvent) (h : l ≠ []) :
    ∃ e, fetchUserMetadata l = some e ∧ e ∈ l ∧
      ∀ x ∈ l, x.created_at ≤ e.created_at :=
  sortDesc_head_max l h

/-- Witness for C1's amended theorem at a concrete candidate list. -/
theorem C1_witness :
    ∃ e, fetchUserMetadata [metaEventA, metaEventB] = some e ∧
      e ∈ [metaEventA, metaEventB] ∧
      ∀ x ∈ [metaEventA, metaEventB], x.created_at ≤ e.created_at :=
  C1_fetchUserMetadata_max_created_at [metaEventA, metaEventB] (by decide)

/-! ## Claim C4: all-relays-failed query -/

/-- **C4 counterexample**: `fetchEvents` maps the "all relays failed" outcome
and the legitimately-empty success outcome to the identical result `[]`; its
return value is its only output, so no separate signal distinguishes them,
contradicting the distinguishability half of the claim. -/
theorem C4_counterexample :
    fetchEvents (Except.error "all relays unreachable") = fetchEvents (Except.ok []) := rfl

/-- **C4 (amended)**: when every queried relay fails, `fetchEvents` returns an
empty result without raising, but this outcome is *not* distinguishable from a
successful query that matched no events: both produce exactly `[]` and the
function exposes no other signal. -/
theorem C4_fetchEvents_failure_indistinguishable :
    ∀ msg : String,
      fetchEvents (Except.error msg) = [] ∧
      fetchEvents (Except.error msg) = fetchEvents (Except.ok []) := by
  intro msg
  exact ⟨rfl, rfl⟩

/-! ## Claim C6: `connectToRelays` partial success -/

theorem connectToRelays_eq_filter (urls : List String) (ok : String → Bool) :
    connectToRelays urls ok = urls.filter ok := by
  induction urls with
  | nil => rfl
  | cons u us ih =>
    simp only [connectToRelays, List.map_cons, List.filterMap_cons] at *
    by_cases h : ok u <;> simp [h, List.filter_cons, ih]

/-- **C6**: `connectToRelays` is total (each per-URL failure is caught and
mapped to `null`, so no individual failure rejects the whole call) and
returns exactly the sublist of URLs whose connection attempts succeeded. -/
theorem C6_connectToRelays_partial_success (urls : List String) (ok : String → Bool) :
    connectToRelays urls ok = urls.filter ok ∧
    ∀ u, u ∈ connectToRelays urls ok ↔ u ∈ urls ∧ ok u = true := by
  refine ⟨connectToRelays_eq_filter urls ok, ?_⟩
  intro u
  rw [connectToRelays_eq_filter]
  simp [List.mem_filter]

/-! ## Claim C7: event-construction failure modes -/

/-- **C7 counterexample**: with a signing key present but malformed (the
signer rejects its bytes), `createNoteEvent` does not fail with an error —
the `catch` branch converts the signer's exception into a successfully
resolved `null`, contradicting the claim that the failure is raised as a
`SigningFailure` error. -/
theorem C7_counterexample :
    createNoteEvent (some "zz") (Except.error "hex error") = Except.ok none := rfl

/-- **C7 (amended)**: every event-construction operation (`createNoteEvent`,
`createReactionEvent`, `updateUserMetadata`) fails with the thrown
"No private key available" error when no signing key is available; when the
signer rejects malformed key bytes, however, the exception is caught and the
operation resolves with `null` — the failure is signalled to the caller only
by the null result, not by a raised `SigningFailure` error. -/
theorem C7_event_construction_failure_modes :
    (∀ s : Except String NEvent,
      createNoteEvent none s = Except.error "No private key available" ∧
      createReactionEvent none s = Except.error "No private key available" ∧
      updateUserMetadata none s = Except.error "No private key available") ∧
    (∀ k m : String,
      createNoteEvent (some k) (Except.error m) = Except.ok none ∧
      createReactionEvent (some k) (Except.error m) = Except.ok none ∧
      updateUserMetadata (some k) (Except.error m) = Except.ok none) := by
  exact ⟨fun s => ⟨rfl, rfl, rfl⟩, fun k m => ⟨rfl, rfl, rfl⟩⟩

/-! ## Claims C9 and C10: the saved relay list -/

/-- **C9**: adding a relay URL not in the saved list persists it, and removing
a URL removes it from the persisted list and tears down its connection (its
entry leaves the active-connection map). -/
theorem C9_add_remove_relay (saved : List String) (url : String) (st : RelayState)
    (h : url ∉ saved) :
    url ∈ addRelay saved url ∧
    url ∉ (removeRelay st url).saved ∧
    url ∉ (removeRelay st url).active := by
  refine ⟨?_, ?_, ?_⟩
  · simp [addRelay, h]
  · simp [removeRelay, List.mem_filter]
  · simp [removeRelay, List.mem_filter]

/-- Witness for C9 at the spec's scenario input `wss://relay.test`. -/
theorem C9_witness :
    "wss://relay.test" ∈ addRelay DEFAULT_RELAYS "wss://relay.test" ∧
    "wss://relay.test" ∉ (removeRelay ⟨DEFAULT_RELAYS ++ ["wss://relay.test"], ["wss://relay.test"]⟩ "wss://relay.test").saved ∧
    "wss://relay.test" ∉ (removeRelay ⟨DEFAULT_RELAYS ++ ["wss://relay.test"], ["wss://relay.test"]⟩ "wss://relay.test").active :=
  C9_add_remove_relay DEFAULT_RELAYS "wss://relay.test"
    ⟨DEFAULT_RELAYS ++ ["wss://relay.test"], ["wss://relay.test"]⟩ (by decide)

/-- **C10**: `addRelay` is idempotent — when the URL is already present the
saved list is returned unchanged (no duplicate, order preserved). -/
theorem C10_addRelay_idempotent (saved : List String) (url : String) (h : url ∈ saved) :
    addRelay saved url = saved := by
  simp [addRelay, h]

/-- Witness for C10 on a default relay already in the list. -/
theorem C10_witness : addRelay DEFAULT_RELAYS "wss://nos.lol" = DEFAULT_RELAYS :=
  C10_addRelay_idempotent DEFAULT_RELAYS "wss://nos.lol" (by decide)

/-! ## Helper lemmas for the merge step (claim C2) -/

theorem dedupById_props (l : List NEvent) :
    ((dedupById l).map (fun e => e.id)).Nodup ∧
    (∀ x ∈ dedupById l, x ∈ l) ∧
    (∀ e ∈ l, ∃ e2 ∈ dedupById l, e2.id = e.id) := by
  induction l with
  | nil => simp [dedupById]
  | cons e es ih =>
    obtain ⟨ih1, ih2, ih3⟩ := ih
    refine ⟨?_, ?_, ?_⟩
    · simp only [dedupById, List.map_cons, List.nodup_cons]
      constructor
      · intro hmem
        rw [List.mem_map] at hmem
        obtain ⟨x, hx, hxid⟩ := hmem
        have hne := (List.mem_filter.mp hx).2
        simp only [ne_eq, decide_not, Bool.not_eq_true', decide_eq_false_iff_not] at hne
        exact hne hxid
      · exact ((List.filter_sublist _).map _).nodup ih1
    · intro x hx
      simp only [dedupById, List.mem_cons] at hx
      rcases hx with rfl | hx
      · exact List.mem_cons_self _ _
      · exact List.mem_cons_of_mem _ (ih2 x (List.mem_of_mem_filter hx))
    · intro x hx
      rcases List.mem_cons.mp hx with rfl | hx
      · exact ⟨x, by simp [dedupById], rfl⟩
      · obtain ⟨e2, he2, hid⟩ := ih3 x hx
        by_cases hcase : e2.id = e.id
        · exact ⟨e, by simp [dedupById], by rw [← hid, hcase]⟩
        · refine ⟨e2, ?_, hid⟩
          simp only [dedupById, List.mem_cons]
          right
          exact List.mem_filter.mpr ⟨he2, by simpa using hcase⟩

theorem insertDesc_perm (e : NEvent) (l : List NEvent) : List.Perm (insertDesc e l) (e :: l) := by
  induction l with
  | nil => rfl
  | cons x xs ih =>
    simp only [insertDesc]
    split
    · exact (ih.cons x).trans (List.Perm.swap e x xs)
    · rfl

theorem sortDesc_perm (l : List NEvent) : List.Perm (sortByCreatedAtDesc l) l := by
  induction l with
  | nil => rfl
  | cons e es ih => exact (insertDesc_perm e _).trans (ih.cons e)

theorem insertDesc_sorted (e : NEvent) (l : List NEvent)
    (h : l.Pairwise (fun a b => b.created_at ≤ a.created_at)) :
    (insertDesc e l).Pairwise (fun a b => b.created_at ≤ a.created_at) := by
  induction l with
  | nil => simp [insertDesc]
  | cons x xs ih =>
    rw [List.pairwise_cons] at h
    obtain ⟨hx, hxs⟩ := h
    simp only [insertDesc]
    split
    · rw [List.pairwise_cons]
      refine ⟨?_, ih hxs⟩
      intro y hy
      rcases (mem_insertDesc e y xs).mp hy with rfl | hy
      · omega
      · exact hx y hy
    · rw [List.pairwise_cons]
      refine ⟨?_, List.pairwise_cons.mpr ⟨hx, hxs⟩⟩
      intro y hy
      rcases List.mem_cons.mp hy with rfl | hy
      · omega
      · have := hx y hy
        omega

theorem sortDesc_sorted (l : List NEvent) :
    (sortByCreatedAtDesc l).Pairwise (fun a b => b.created_at ≤ a.created_at) := by
  induction l with
  | nil => simp [sortByCreatedAtDesc]
  | cons e es ih => exact insertDesc_sorted e _ ih

/-! ## Claim C2: the merged timeline deduplicates by id and sorts descending -/

/-- **C2**: applying pending events merges the two per-source result sets so
that each event id occurs exactly once (duplicates across sources collapse to
one copy, every incoming id is represented) and the returned list is sorted
by `created_at` in descending order. -/
theorem C2_applyPendingEvents_dedup_sorted (prev pending : List NEvent)
    (h : 0 < pending.length) :
    ((applyPendingEvents prev pending).map (fun e => e.id)).Nodup ∧
    (∀ e ∈ prev ++ pending, ∃ e2 ∈ applyPendingEvents prev pending, e2.id = e.id) ∧
    (∀ e ∈ applyPendingEvents prev pending, e ∈ prev ++ pending) ∧
    (applyPendingEvents prev pending).Pairwise (fun a b => b.created_at ≤ a.created_at) := by
  have hmerge : applyPendingEvents prev pending = mergeEvents prev pending := by
    simp [applyPendingEvents, h]
  obtain ⟨hd1, hd2, hd3⟩ := dedupById_props (prev ++ pending)
  have hperm : List.Perm (mergeEvents prev pending) (dedupById (prev ++ pending)) :=
    sortDesc_perm _
  rw [hmerge]
  refine ⟨?_, ?_, ?_, sortDesc_sorted _⟩
  · exact ((hperm.map (fun e => e.id)).nodup_iff).mpr hd1
  · intro e he
    obtain ⟨e2, he2, hid⟩ := hd3 e he
    exact ⟨e2, hperm.mem_iff.mpr he2, hid⟩
  · intro e he
    exact hd2 e (hperm.mem_iff.mp he)

def noteX : NEvent := { id := "x", pubkey := "p1", created_at := 10, kind := 1, content := "hello" }

def noteY : NEvent := { id := "y", pubkey := "p2", created_at := 20, kind := 1, content := "world" }

/-- Witness for C2: the previous list and pending list share the event `noteX`. -/
theorem C2_witness :
    ((applyPendingEvents [noteX] [noteY, noteX]).map (fun e => e.id)).Nodup ∧
    (∀ e ∈ [noteX] ++ [noteY, noteX], ∃ e2 ∈ applyPendingEvents [noteX] [noteY, noteX], e2.id = e.id) ∧
    (∀ e ∈ applyPendingEvents [noteX] [noteY, noteX], e ∈ [noteX] ++ [noteY, noteX]) ∧
    (applyPendingEvents [noteX] [noteY, noteX]).Pairwise (fun a b => b.created_at ≤ a.created_at) :=
  C2_applyPendingEvents_dedup_sorted [noteX] [noteY, noteX] (by decide)

/-! ## Claim C5: at-most-once delivery per id on the subscription path -/

/-- Modelled from the spec: `subscribeToEvents` (events.ts:156-176) forwards
every delivery of the external relay-pool library's `subscribeMany` to
`onEvent`; that library—whose source is not part of this repository—is
described by the spec as deduplicating incoming events across relays through
a session-scoped pool-level cache keyed by `id`.  `seen` is that cache;
the incoming list is the cross-relay arrival stream, and the result is the
list of events for which `onEvent` fires, in order. -/
def poolDeliver : List String → List NEvent → List NEvent
  | _, [] => []
  | seen, e :: es =>
    if e.id ∈ seen then poolDeliver seen es
    else e :: poolDeliver (e.id :: seen) es

theorem poolDeliver_nodup_aux (incoming : List NEvent) :
    ∀ seen : List String,
      ((poolDeliver seen incoming).map (fun e => e.id)).Nodup ∧
      ∀ x ∈ poolDeliver seen incoming, x.id ∉ seen := by
  induction incoming with
  | nil => intro seen; simp [poolDeliver]
  | cons e es ih =>
    intro seen
    simp only [poolDeliver]
    split
    · exact ih seen
    · obtain ⟨ih1, ih2⟩ := ih (e.id :: seen)
      refine ⟨?_, ?_⟩
      · simp only [List.map_cons, List.nodup_cons]
        refine ⟨?_, ih1⟩
        intro hmem
        rw [List.mem_map] at hmem
        obtain ⟨x, hx, hxid⟩ := hmem
        exact (ih2 x hx) (by simp [hxid])
      · intro x hx
        rcases List.mem_cons.mp hx with rfl | hx
        · assumption
        · have := ih2 x hx
          simp only [List.mem_cons, not_or] at this
          exact this.2

theorem countP_le_one_of_nodup_map (f : NEvent → String) (l : List NEvent)
    (h : (l.map f).Nodup) (i : String) : l.countP (fun e => f e == i) ≤ 1 := by
  induction l with
  | nil => simp
  | cons a l ih =>
    simp only [List.map_cons, List.nodup_cons] at h
    obtain ⟨ha, hl⟩ := h
    rw [List.countP_cons]
    by_cases hai : (f a == i) = true
    · have hz : l.countP (fun e => f e == i) = 0 := by
        rw [List.countP_eq_zero]
        intro x hx hxi
        simp only [beq_iff_eq] at hai hxi
        apply ha
        rw [List.mem_map]
        exact ⟨x, hx, by rw [hxi, hai]⟩
      simp [hai, hz]
    · simp only [hai, if_false]
      exact Nat.le_trans (ih hl) (by omega)

/-- **C5**: on the subscription path, for every cross-relay arrival stream and
every event id, `onEvent` fires at most once for that id — the pool-level
cache keyed by `id` suppresses every later duplicate, so the delivered
events have pairwise-distinct ids. -/
theorem C5_subscription_dedup (incoming : List NEvent) (i : String) :
    ((poolDeliver [] incoming).map (fun e => e.id)).Nodup ∧
    (poolDeliver [] incoming).countP (fun e => e.id == i) ≤ 1 := by
  have h := (poolDeliver_nodup_aux incoming []).1
  exact ⟨h, countP_le_one_of_nodup_map (fun e => e.id) _ h i⟩

/-! ## Claim C3: `publishEvent` per-relay acknowledgment map (events.ts:46-82)

The `results` object is a string-keyed map in insertion order; the JavaScript
assignment `results[k] = v` updates an existing entry in place or appends a
new one.  `publishEvent` first initializes every listed relay to `false`,
then `Promise.allSettled` (which never rejects) yields one outcome per relay
in relay order, and each fulfilled outcome sets its relay's entry to `true`. -/

def recordKeys (r : List (String × Bool)) : List String := r.map Prod.fst

def recordSet (r : List (String × Bool)) (k : String) (v : Bool) : List (String × Bool) :=
  if k ∈ recordKeys r then r.map (fun p => if p.1 = k then (k, v) else p)
  else r ++ [(k, v)]

def recordGet : List (String × Bool) → String → Option Bool
  | [], _ => none
  | p :: r, k => if p.1 = k then some p.2 else recordGet r k

/-- `relayUrls.forEach(relayUrl => { results[relayUrl] = false })`. -/
def initResults (urls : List String) : List (String × Bool) :=
  urls.foldl (fun r u => recordSet r u false) []

/-- `settledResults.forEach((result, index) => ...)`: each settled outcome is
paired by index with its relay URL; a fulfilled publish sets the entry true,
a rejected one leaves it untouched. -/
def applySettled (r : List (String × Bool)) (pairs : List (Bool × String)) :
    List (String × Bool) :=
  pairs.foldl (fun r q => if q.1 then recordSet r q.2 true else r) r

/-- `publishEvent` (events.ts:46-82): `settled` lists, in relay order, whether
each relay's publish promise fulfilled. -/
def publishEvent (urls : List String) (settled : List Bool) : List (String × Bool) :=
  applySettled (initResults urls) (settled.zip urls)

theorem recordGet_append_other (r : List (String × Bool)) (k k' : String) (v : Bool)
    (h : k' ≠ k) : recordGet (r ++ [(k, v)]) k' = recordGet r k' := by
  induction r with
  | nil => simp [recordGet, Ne.symm h]
  | cons p r ih =>
    simp only [List.cons_append, recordGet]
    split
    · rfl
    · exact ih

theorem recordGet_append_self (r : List (String × Bool)) (k : String) (v : Bool)
    (h : k ∉ recordKeys r) : recordGet (r ++ [(k, v)]) k = some v := by
  induction r with
  | nil => simp [recordGet]
  | cons p r ih =>
    simp only [recordKeys, List.map_cons, List.mem_cons, not_or] at h
    have hpk : ¬ p.1 = k := fun he => h.1 he.symm
    simp only [List.cons_append, recordGet, if_neg hpk]
    exact ih h.2

theorem map_update_of_not_mem (r : List (String × Bool)) (k : String) (v : Bool)
    (h : k ∉ recordKeys r) : r.map (fun p => if p.1 = k then (k, v) else p) = r := by
  induction r with
  | nil => rfl
  | cons p r ih =>
    simp only [recordKeys, List.map_cons, List.mem_cons, not_or] at h
    have hpk : ¬ p.1 = k := fun he => h.1 he.symm
    simp only [List.map_cons, if_neg hpk]
    rw [ih h.2]

theorem recordGet_map_update_self (r : List (String × Bool)) (k : String) (v : Bool)
    (hk : k ∈ recordKeys r) :
    recordGet (r.map (fun p => if p.1 = k then (k, v) else p)) k = some v := by
  induction r with
  | nil => simp [recordKeys] at hk
  | cons p r ih =>
    simp only [List.map_cons]
    by_cases hp : p.1 = k
    · simp [recordGet, hp]
    · simp only [if_neg hp, recordGet, if_neg hp]
      apply ih
      rw [recordKeys, List.map_cons] at hk
      rcases List.mem_cons.mp hk with hcase | hkr
      · exact absurd hcase.symm hp
      · exact hkr

theorem recordGet_map_update_other (r : List (String × Bool)) (k k' : String) (v : Bool)
    (h : k' ≠ k) :
    recordGet (r.map (fun p => if p.1 = k then (k, v) else p)) k' = recordGet r k' := by
  induction r with
  | nil => rfl
  | cons p r ih =>
    simp only [List.map_cons]
    by_cases hp : p.1 = k
    · simp only [if_pos hp, recordGet]
      have h1 : ¬ k = k' := fun he => h he.symm
      have h2 : ¬ p.1 = k' := fun he => h (by rw [← he]; exact hp)
      rw [if_neg h1, if_neg h2]
      exact ih
    · simp only [if_neg hp, recordGet]
      split
      · rfl
      · exact ih

theorem recordGet_recordSet_self (r : List (String × Bool)) (k : String) (v : Bool) :
    recordGet (recordSet r k v) k = some v := by
  unfold recordSet
  split
  · exact recordGet_map_update_self r k v (by assumption)
  · exact recordGet_append_self r k v (by assumption)

theorem recordGet_recordSet_other (r : List (String × Bool)) (k k' : String) (v : Bool)
    (h : k' ≠ k) : recordGet (recordSet r k v) k' = recordGet r k' := by
  unfold recordSet
  split
  · exact recordGet_map_update_other r k k' v h
  · exact recordGet_append_other r k k' v h

theorem recordKeys_recordSet (r : List (String × Bool)) (k : String) (v : Bool) :
    recordKeys (recordSet r k v) =
      if k ∈ recordKeys r then recordKeys r else recordKeys r ++ [k] := by
  unfold recordSet
  split
  · simp only [recordKeys, List.map_map]
    apply List.map_congr_left
    intro p _
    by_cases hp : p.1 = k
    · simp [Function.comp, hp]
    · simp [Function.comp, hp]
  · simp [recordKeys]

theorem initFold_keys (urls : List String) :
    ∀ r : List (String × Bool), urls.Nodup → (∀ u ∈ urls, u ∉ recordKeys r) →
      recordKeys (urls.foldl (fun r u => recordSet r u false) r) = recordKeys r ++ urls := by
  induction urls with
  | nil => intro r _ _; simp
  | cons u us ih =>
    intro r hnd hdisj
    simp only [List.foldl_cons]
    have hu : u ∉ recordKeys r := hdisj u (List.mem_cons_self u us)
    have hkeys : recordKeys (recordSet r u false) = recordKeys r ++ [u] := by
      rw [recordKeys_recordSet, if_neg hu]
    rw [List.nodup_cons] at hnd
    rw [ih (recordSet r u false) hnd.2 ?_, hkeys]
    · simp
    · intro x hx
      rw [hkeys]
      simp only [List.mem_append, List.mem_singleton, not_or]
      exact ⟨fun hc => hdisj x (List.mem_cons_of_mem u hx) hc,
             fun hc => hnd.1 (hc ▸ hx)⟩

theorem initFold_lookup_not_mem (urls : List String) :
    ∀ (r : List (String × Bool)) (u : String), u ∉ urls →
      recordGet (urls.foldl (fun r u => recordSet r u false) r) u = recordGet r u := by
  induction urls with
  | nil => intro r u _; rfl
  | cons v us ih =>
    intro r u hu
    simp only [List.mem_cons, not_or] at hu
    simp only [List.foldl_cons]
    rw [ih _ u hu.2, recordGet_recordSet_other _ _ _ _ hu.1]

theorem initFold_lookup_mem (urls : List String) :
    ∀ (r : List (String × Bool)) (u : String), urls.Nodup → u ∈ urls →
      recordGet (urls.foldl (fun r u => recordSet r u false) r) u = some false := by
  induction urls with
  | nil => intro r u _ hu; simp at hu
  | cons v us ih =>
    intro r u hnd hu
    rw [List.nodup_cons] at hnd
    simp only [List.foldl_cons]
    rcases List.mem_cons.mp hu with rfl | hu2
    · rw [initFold_lookup_not_mem us _ u hnd.1]
      exact recordGet_recordSet_self r u false
    · exact ih _ u hnd.2 hu2

theorem applySettled_lookup_not_hit (pairs : List (Bool × String)) :
    ∀ (r : List (String × Bool)) (u : String), (∀ q ∈ pairs, q.2 ≠ u) →
      recordGet (applySettled r pairs) u = recordGet r u := by
  induction pairs with
  | nil => intro r u _; rfl
  | cons q ps ih =>
    intro r u h
    simp only [applySettled, List.foldl_cons]
    rw [show (List.foldl (fun r q => if q.1 = true then recordSet r q.2 true else r)
      (if q.1 = true then recordSet r q.2 true else r) ps) =
      applySettled (if q.1 = true then recordSet r q.2 true else r) ps from rfl]
    rw [ih _ u (fun p hp => h p (List.mem_cons_of_mem q hp))]
    split
    · exact recordGet_recordSet_other _ _ _ _ (Ne.symm (h q (List.mem_cons_self q ps)))
    · rfl

theorem applySettled_lookup_hit (pairs : List (Bool × String)) :
    ∀ (r : List (String × Bool)) (q : Bool × String), q ∈ pairs →
      (pairs.map Prod.snd).Nodup →
      recordGet (applySettled r pairs) q.2 =
        if q.1 then some true else recordGet r q.2 := by
  induction pairs with
  | nil => intro r q hq _; simp at hq
  | cons p ps ih =>
    intro r q hq hnd
    simp only [List.map_cons, List.nodup_cons] at hnd
    simp only [applySettled, List.foldl_cons]
    rw [show (List.foldl (fun r q => if q.1 = true then recordSet r q.2 true else r)
      (if p.1 = true then recordSet r p.2 true else r) ps) =
      applySettled (if p.1 = true then recordSet r p.2 true else r) ps from rfl]
    rcases List.mem_cons.mp hq with rfl | hq2
    · rw [applySettled_lookup_not_hit ps _ q.2 ?_]
      · split
        · exact recordGet_recordSet_self _ _ _
        · rfl
      · intro x hx he
        exact hnd.1 (he ▸ List.mem_map_of_mem Prod.snd hx)
    · rw [ih _ q hq2 hnd.2]
      have hne : q.2 ≠ p.2 := by
        intro he
        exact hnd.1 (he ▸ List.mem_map_of_mem Prod.snd hq2)
      split
      · rfl
      · split
        · exact recordGet_recordSet_other _ _ _ _ hne
        · rfl

theorem applySettled_keys (pairs : List (Bool × String)) :
    ∀ r : List (String × Bool), (∀ q ∈ pairs, q.2 ∈ recordKeys r) →
      recordKeys (applySettled r pairs) = recordKeys r := by
  induction pairs with
  | nil => intro r _; rfl
  | cons q ps ih =>
    intro r h
    simp only [applySettled, List.foldl_cons]
    rw [show (List.foldl (fun r q => if q.1 = true then recordSet r q.2 true else r)
      (if q.1 = true then recordSet r q.2 true else r) ps) =
      applySettled (if q.1 = true then recordSet r q.2 true else r) ps from rfl]
    have hkeys : recordKeys (if q.1 = true then recordSet r q.2 true else r) = recordKeys r := by
      split
      · rw [recordKeys_recordSet, if_pos (h q (List.mem_cons_self q ps))]
      · rfl
    rw [ih _ ?_, hkeys]
    intro p hp
    rw [hkeys]
    exact h p (List.mem_cons_of_mem q hp)

/-- **C3**: for every relay list and every pattern of per-relay outcomes,
`publishEvent` resolves with an acknowledgment map holding exactly one entry
per listed URL, in which each relay is marked by its own settled outcome
(fulfilled publishes `true`, rejections and timeouts `false`); each entry is
determined solely by that relay's outcome, so one relay's failure never
changes another relay's entry and a partial outcome is returned as-is. -/
theorem C3_publishEvent_ack_map (urls : List String) (settled : List Bool)
    (hnd : urls.Nodup) (hlen : settled.length = urls.length) :
    recordKeys (publishEvent urls settled) = urls ∧
    ∀ q ∈ settled.zip urls, recordGet (publishEvent urls settled) q.2 = some q.1 := by
  have hkeys_init : recordKeys (initResults urls) = urls := by
    have h := initFold_keys urls [] hnd (by simp [recordKeys])
    simpa [initResults, recordKeys] using h
  have hmapsnd : (settled.zip urls).map Prod.snd = urls :=
    List.map_snd_zip settled urls (le_of_eq hlen.symm)
  constructor
  · rw [publishEvent, applySettled_keys]
    · exact hkeys_init
    · intro q hq
      rw [hkeys_init]
      exact (List.of_mem_zip hq).2
  · intro q hq
    have hsnd_nodup : ((settled.zip urls).map Prod.snd).Nodup := by
      rw [hmapsnd]; exact hnd
    rw [publishEvent, applySettled_lookup_hit _ _ q hq hsnd_nodup]
    cases hq1 : q.1
    · simp only [Bool.false_eq_true, if_false]
      apply initFold_lookup_mem urls [] q.2 hnd
      rw [← hmapsnd]
      exact List.mem_map_of_mem Prod.snd hq
    · simp

/-- Witness for C3 at the spec's scenario: three relays, one times out and
two succeed — one `false` and two `true` entries, one entry per relay. -/
theorem C3_witness :
    recordKeys (publishEvent ["wss://r1", "wss://r2", "wss://r3"] [true, false, true]) =
      ["wss://r1", "wss://r2", "wss://r3"] ∧
    ∀ q ∈ [true, false, true].zip ["wss://r1", "wss://r2", "wss://r3"],
      recordGet (publishEvent ["wss://r1", "wss://r2", "wss://r3"] [true, false, true]) q.2 =
        some q.1 :=
  C3_publishEvent_ack_map ["wss://r1", "wss://r2", "wss://r3"] [true, false, true]
    (by decide) (by decide)

/-! ## Claim C8: display-encoding round trips (keys.ts:38-80)

`hexToNpub`/`npubToHex` and `hexToNsec`/`nsecToHex` wrap the external
`nip19` module and the external `hexToBytes`/`bytesToHex` helpers; none of
that code is part of this repository's sources.  Modelled from the spec: the
display encoding is the prefixed, checksummed bech32 encoding of the 32 key
bytes ("wrong length, bad checksum/prefix" are the decode failures the spec
names), and the hex helpers parse byte lists from hexadecimal (accepting
both cases, as the external parser does) and print in lowercase.  Key
strings are modelled as `List Char`. -/

def HEXMAP : List (Char × Nat) :=
  [('0', 0), ('1', 1), ('2', 2), ('3', 3), ('4', 4), ('5', 5), ('6', 6), ('7', 7),
   ('8', 8), ('9', 9), ('a', 10), ('b', 11), ('c', 12), ('d', 13), ('e', 14), ('f', 15),
   ('A', 10), ('B', 11), ('C', 12), ('D', 13), ('E', 14), ('F', 15)]

def hexDigitVal (c : Char) : Option Nat :=
  (HEXMAP.find? (fun p => p.1 == c)).map (fun p => p.2)

/-- The sixteen lowercase hex digits (the first half of `HEXMAP`): the
alphabet `bytesToHex` emits. -/
def LOWHEX : List Char := (HEXMAP.take 16).map Prod.fst

def natToHexDigit : Nat → Char
  | 0 => '0' | 1 => '1' | 2 => '2' | 3 => '3' | 4 => '4' | 5 => '5' | 6 => '6'
  | 7 => '7' | 8 => '8' | 9 => '9' | 10 => 'a' | 11 => 'b' | 12 => 'c' | 13 => 'd'
  | 14 => 'e' | 15 => 'f' | _ => '0'

/-- Hex parsing: two characters per byte, rejecting odd length and
non-hex characters (the external parser throws in those cases). -/
def hexToBytes : List Char → Option (List Nat)
  | [] => some []
  | [_] => none
  | c1 :: c2 :: rest =>
    match hexDigitVal c1, hexDigitVal c2, hexToBytes rest with
    | some hi, some lo, some bs => some ((hi * 16 + lo) :: bs)
    | _, _, _ => none

def bytesToHex : List Nat → List Char
  | [] => []
  | b :: bs => natToHexDigit (b / 16) :: natToHexDigit (b % 16) :: bytesToHex bs

theorem hexDigitVal_lt_16 (c : Char) (v : Nat) (h : hexDigitVal c = some v) : v < 16 := by
  unfold hexDigitVal at h
  cases hf : HEXMAP.find? (fun p => p.1 == c) with
  | none => rw [hf] at h; simp at h
  | some p =>
    rw [hf] at h
    simp only [Option.map_some', Option.some.injEq] at h
    have hp := List.mem_of_find?_eq_some hf
    have hall : ∀ q ∈ HEXMAP, q.2 < 16 := by decide
    rw [← h]
    exact hall p hp

theorem hexVal_print_roundtrip : ∀ c ∈ LOWHEX,
    (hexDigitVal c).map natToHexDigit = some c := by
  decide

theorem bytesToHex_hexToBytes_aux (n : Nat) :
    ∀ (s : List Char), s.length ≤ n → ∀ bs, hexToBytes s = some bs →
      (∀ c ∈ s, c ∈ LOWHEX) → bytesToHex bs = s := by
  induction n with
  | zero =>
    intro s hs bs h _
    have : s = [] := List.eq_nil_of_length_eq_zero (Nat.le_zero.mp hs)
    subst this
    simp only [hexToBytes, Option.some.injEq] at h
    rw [← h]
    rfl
  | succ n ih =>
    intro s hs bs h hlow
    match s with
    | [] =>
      simp only [hexToBytes, Option.some.injEq] at h
      rw [← h]; rfl
    | [c] => simp [hexToBytes] at h
    | c1 :: c2 :: rest =>
      rw [hexToBytes] at h
      cases h1 : hexDigitVal c1 with
      | none => rw [h1] at h; simp at h
      | some hi =>
        cases h2 : hexDigitVal c2 with
        | none => rw [h1, h2] at h; simp at h
        | some lo =>
          cases h3 : hexToBytes rest with
          | none => rw [h1, h2, h3] at h; simp at h
          | some bs2 =>
            rw [h1, h2, h3] at h
            simp only [Option.some.injEq] at h
            rw [← h]
            have hhi := hexDigitVal_lt_16 c1 hi h1
            have hlo := hexDigitVal_lt_16 c2 lo h2
            have hdiv : (hi * 16 + lo) / 16 = hi := by omega
            have hmod : (hi * 16 + lo) % 16 = lo := by omega
            rw [bytesToHex, hdiv, hmod]
            have hc1 : natToHexDigit hi = c1 := by
              have hr := hexVal_print_roundtrip c1 (hlow c1 (by simp))
              rw [h1] at hr
              simpa using hr
            have hc2 : natToHexDigit lo = c2 := by
              have hr := hexVal_print_roundtrip c2 (hlow c2 (by simp))
              rw [h2] at hr
              simpa using hr
            rw [hc1, hc2,
              ih rest (by simp at hs; omega) bs2 h3
                (fun c hc => hlow c (by simp [hc]))]

theorem bytesToHex_hexToBytes (s : List Char) (bs : List Nat)
    (h : hexToBytes s = some bs) (hlow : ∀ c ∈ s, c ∈ LOWHEX) :
    bytesToHex bs = s :=
  bytesToHex_hexToBytes_aux s.length s (le_refl _) bs h hlow

theorem hexToBytes_lt_256_aux (n : Nat) :
    ∀ (s : List Char), s.length ≤ n → ∀ bs, hexToBytes s = some bs →
      ∀ b ∈ bs, b < 256 := by
  induction n with
  | zero =>
    intro s hs bs h b hb
    have : s = [] := List.eq_nil_of_length_eq_zero (Nat.le_zero.mp hs)
    subst this
    simp only [hexToBytes, Option.some.injEq] at h
    rw [← h] at hb
    simp at hb
  | succ n ih =>
    intro s hs bs h b hb
    match s with
    | [] =>
      simp only [hexToBytes, Option.some.injEq] at h
      rw [← h] at hb
      simp at hb
    | [c] => simp [hexToBytes] at h
    | c1 :: c2 :: rest =>
      rw [hexToBytes] at h
      cases h1 : hexDigitVal c1 with
      | none => rw [h1] at h; simp at h
      | some hi =>
        cases h2 : hexDigitVal c2 with
        | none => rw [h1, h2] at h; simp at h
        | some lo =>
          cases h3 : hexToBytes rest with
          | none => rw [h1, h2, h3] at h; simp at h
          | some bs2 =>
            rw [h1, h2, h3] at h
            simp only [Option.some.injEq] at h
            rw [← h] at hb
            have hhi := hexDigitVal_lt_16 c1 hi h1
            have hlo := hexDigitVal_lt_16 c2 lo h2
            rcases List.mem_cons.mp hb with rfl | hb2
            · omega
            · exact ih rest (by simp at hs; omega) bs2 h3 b hb2

/-! ### Fixed-width positional digits

The bit-regrouping steps of the bech32 conversion (8-bit bytes to 5-bit
words and back, MSB-first with zero padding) are the base-256 and base-32
digit expansions of the underlying number. -/

def digitsLEToNat (base : Nat) : List Nat → Nat
  | [] => 0
  | d :: ds => d + base * digitsLEToNat base ds

def natToDigitsLE (base : Nat) : Nat → Nat → List Nat
  | 0, _ => []
  | k + 1, n => n % base :: natToDigitsLE base k (n / base)

theorem natToDigitsLE_length (base k n : Nat) : (natToDigitsLE base k n).length = k := by
  induction k generalizing n with
  | zero => rfl
  | succ k ih => simp [natToDigitsLE, ih]

theorem natToDigitsLE_lt (base k n : Nat) (hb : 0 < base) :
    ∀ d ∈ natToDigitsLE base k n, d < base := by
  induction k generalizing n with
  | zero => intro d hd; simp [natToDigitsLE] at hd
  | succ k ih =>
    intro d hd
    simp only [natToDigitsLE, List.mem_cons] at hd
    rcases hd with rfl | hd
    · exact Nat.mod_lt _ hb
    · exact ih (n / base) d hd

theorem natToDigitsLE_digitsLEToNat (base : Nat) (l : List Nat)
    (hb : ∀ d ∈ l, d < base) :
    natToDigitsLE base l.length (digitsLEToNat base l) = l := by
  induction l with
  | nil => rfl
  | cons d ds ih =>
    have hd : d < base := hb d (List.mem_cons_self d ds)
    have hbase : 0 < base := by omega
    simp only [List.length_cons, natToDigitsLE, digitsLEToNat]
    rw [Nat.add_mul_mod_self_left, Nat.mod_eq_of_lt hd,
      Nat.add_mul_div_left _ _ hbase, Nat.div_eq_of_lt hd, Nat.zero_add,
      ih (fun x hx => hb x (List.mem_cons_of_mem d hx))]

theorem digitsLEToNat_natToDigitsLE (base k : Nat) :
    ∀ n, n < base ^ k → digitsLEToNat base (natToDigitsLE base k n) = n := by
  induction k with
  | zero =>
    intro n hn
    simp only [pow_zero, Nat.lt_one_iff] at hn
    simp [natToDigitsLE, digitsLEToNat, hn]
  | succ k ih =>
    intro n hn
    have hbase : 0 < base := by
      rcases base with _ | b
      · simp at hn
      · omega
    simp only [natToDigitsLE, digitsLEToNat]
    rw [ih (n / base) ?_, Nat.mod_add_div]
    rw [pow_succ] at hn
    exact Nat.div_lt_of_lt_mul (by rwa [Nat.mul_comm] at hn)

theorem digitsLEToNat_lt (base : Nat) (l : List Nat) (hb : ∀ d ∈ l, d < base) :
    digitsLEToNat base l < base ^ l.length := by
  induction l with
  | nil => simp [digitsLEToNat]
  | cons d ds ih =>
    have hd : d < base := hb d (List.mem_cons_self d ds)
    have ihs : digitsLEToNat base ds + 1 ≤ base ^ ds.length :=
      ih (fun x hx => hb x (List.mem_cons_of_mem d hx))
    simp only [digitsLEToNat, List.length_cons]
    calc d + base * digitsLEToNat base ds
        = base * digitsLEToNat base ds + d := Nat.add_comm _ _
      _ < base * digitsLEToNat base ds + base := Nat.add_lt_add_left hd _
      _ = base * (digitsLEToNat base ds + 1) := (Nat.mul_succ base _).symm
      _ ≤ base * base ^ ds.length := Nat.mul_le_mul_left base ihs
      _ = base ^ (ds.length + 1) := (pow_succ' base ds.length).symm

/-! ### Byte/word regrouping of the bech32 layer (32-byte payloads) -/

/-- `toWords` of the bech32 module for a 32-byte payload: the 256 payload
bits followed by 4 zero padding bits, regrouped MSB-first into 52 5-bit
words — the base-32 big-endian digits of the payload value shifted by 4. -/
def toWords (bs : List Nat) : List Nat :=
  (natToDigitsLE 32 52 (digitsLEToNat 256 bs.reverse * 16)).reverse

/-- `fromWords`: regroups 52 5-bit words into 32 bytes, rejecting wrong
length or non-zero padding bits (the external converter throws on excess or
non-zero padding, and the nip19 decoder requires 32-byte key payloads). -/
def fromWords (ws : List Nat) : Option (List Nat) :=
  if ws.length = 52 then
    if digitsLEToNat 32 ws.reverse % 16 = 0 then
      some ((natToDigitsLE 256 32 (digitsLEToNat 32 ws.reverse / 16)).reverse)
    else none
  else none

theorem toWords_lt (bs : List Nat) : ∀ w ∈ toWords bs, w < 32 := by
  intro w hw
  rw [toWords, List.mem_reverse] at hw
  exact natToDigitsLE_lt 32 52 _ (by omega) w hw

theorem toWords_length (bs : List Nat) : (toWords bs).length = 52 := by
  rw [toWords, List.length_reverse, natToDigitsLE_length]

theorem fromWords_toWords (bs : List Nat) (hlen : bs.length = 32)
    (hb : ∀ b ∈ bs, b < 256) : fromWords (toWords bs) = some bs := by
  have hVlt : digitsLEToNat 256 bs.reverse < 256 ^ 32 := by
    have h := digitsLEToNat_lt 256 bs.reverse
      (fun d hd => hb d (List.mem_reverse.mp hd))
    rwa [List.length_reverse, hlen] at h
  have hpow : (256 : Nat) ^ 32 * 16 = 32 ^ 52 := by norm_num
  have h16 : digitsLEToNat 256 bs.reverse * 16 < 32 ^ 52 := by
    rw [← hpow]
    omega
  rw [fromWords, if_pos (toWords_length bs)]
  rw [toWords, List.reverse_reverse,
    digitsLEToNat_natToDigitsLE 32 52 _ h16]
  rw [if_pos (Nat.mul_mod_left _ 16), Nat.mul_div_cancel _ (by omega)]
  have hrt := natToDigitsLE_digitsLEToNat 256 bs.reverse
    (fun d hd => hb d (List.mem_reverse.mp hd))
  rw [List.length_reverse, hlen] at hrt
  rw [hrt, List.reverse_reverse]

/-! ### Bech32 encoding (per the standard the nip19 module implements) -/

def CHARSET : List Char :=
  ['q', 'p', 'z', 'r', 'y', '9', 'x', '8', 'g', 'f', '2', 't', 'v', 'd', 'w', '0',
   's', '3', 'j', 'n', '5', '4', 'k', 'h', 'c', 'e', '6', 'm', 'u', 'a', '7', 'l']

def encodeWord (w : Nat) : Char := CHARSET.getD w 'q'

def decodeChar (c : Char) : Option Nat := CHARSET.findIdx? (fun x => x == c)

def decodeChars : List Char → Option (List Nat)
  | [] => some []
  | c :: cs =>
    match decodeChar c, decodeChars cs with
    | some w, some ws => some (w :: ws)
    | _, _ => none

theorem decodeChar_encodeWord : ∀ w : Nat, w < 32 → decodeChar (encodeWord w) = some w := by
  decide

theorem encodeWord_ne_sep : ∀ w : Nat, w < 32 → ¬ encodeWord w = '1' := by
  decide

theorem decodeChars_map_encodeWord (ws : List Nat) (h : ∀ w ∈ ws, w < 32) :
    decodeChars (ws.map encodeWord) = some ws := by
  induction ws with
  | nil => rfl
  | cons w ws ih =>
    simp only [List.map_cons, decodeChars]
    rw [decodeChar_encodeWord w (h w (List.mem_cons_self w ws)),
      ih (fun x hx => h x (List.mem_cons_of_mem w hx))]

/-- The generator constants of the bech32 checksum polynomial. -/
def GEN : List Nat := [996825010, 642813549, 513874426, 1027748829, 705979059]

def polymodStep (chk v : Nat) : Nat :=
  (List.range 5).foldl
    (fun c i => if (chk >>> 25 >>> i) &&& 1 = 1 then c ^^^ GEN.getD i 0 else c)
    (((chk &&& 33554431) <<< 5) ^^^ v)

def bech32Polymod (values : List Nat) : Nat := values.foldl polymodStep 1

def hrpExpand (hrp : List Char) : List Nat :=
  hrp.map (fun c => c.toNat >>> 5) ++ 0 :: hrp.map (fun c => c.toNat &&& 31)

def bech32Checksum (hrp : List Char) (data : List Nat) : List Nat :=
  (List.range 6).map
    (fun i =>
      ((bech32Polymod (hrpExpand hrp ++ data ++ [0, 0, 0, 0, 0, 0]) ^^^ 1)
        >>> (5 * (5 - i))) &&& 31)

theorem bech32Checksum_length (hrp : List Char) (data : List Nat) :
    (bech32Checksum hrp data).length = 6 := by
  simp [bech32Checksum]

theorem bech32Checksum_lt (hrp : List Char) (data : List Nat) :
    ∀ w ∈ bech32Checksum hrp data, w < 32 := by
  intro w hw
  rw [bech32Checksum, List.mem_map] at hw
  obtain ⟨i, _, hi⟩ := hw
  have hle : w ≤ 31 := hi ▸ Nat.and_le_right
  omega

/-- `hrp ++ "1" ++ data-part`: the encoded string. -/
def bech32Encode (hrp : List Char) (data : List Nat) : List Char :=
  hrp ++ '1' :: (data ++ bech32Checksum hrp data).map encodeWord

/-- Splits an encoded string at the *last* separator character, as the
bech32 decoder does (the hrp itself may contain the separator). -/
def splitAtLastSep (s : List Char) : Option (List Char × List Char) :=
  match s.reverse.findIdx? (fun c => c == '1') with
  | none => none
  | some j => some (s.take (s.length - 1 - j), s.drop (s.length - j))

/-- Decodes: split at the last separator, map the data part through the
charset, and check the trailing six words against the recomputed checksum of
the payload (equivalent to the standard's polymod verification: a data part
passes exactly when its last six words are the checksum of the rest). -/
def bech32Decode (s : List Char) : Option (List Char × List Nat) :=
  match splitAtLastSep s with
  | none => none
  | some (hrp, dataPart) =>
    match decodeChars dataPart with
    | none => none
    | some words =>
      if 6 ≤ words.length then
        if words.drop (words.length - 6) =
            bech32Checksum hrp (words.take (words.length - 6)) then
          some (hrp, words.take (words.length - 6))
        else none
      else none

theorem findIdx?_append_first (p : Char → Bool) (l : List Char) (x : Char) (r : List Char)
    (hl : ∀ a ∈ l, p a = false) (hx : p x = true) :
    List.findIdx? p (l ++ x :: r) = some l.length := by
  induction l with
  | nil => simp [List.findIdx?_cons, hx]
  | cons a l ih =>
    have ha := hl a (List.mem_cons_self a l)
    rw [List.cons_append, List.findIdx?_cons, ha]
    simp only [Bool.false_eq_true, if_false]
    rw [List.findIdx?_succ, ih (fun b hb => hl b (List.mem_cons_of_mem a hb))]
    simp

theorem splitAtLastSep_encode (hrp tail : List Char) (h : ∀ c ∈ tail, ¬ c = '1') :
    splitAtLastSep (hrp ++ '1' :: tail) = some (hrp, tail) := by
  unfold splitAtLastSep
  have hrev : (hrp ++ '1' :: tail).reverse = tail.reverse ++ '1' :: hrp.reverse := by
    simp
  rw [hrev, findIdx?_append_first _ _ _ _ ?_ (by decide)]
  · simp only [List.length_reverse]
    have hlen : (hrp ++ '1' :: tail).length = hrp.length + tail.length + 1 := by
      simp only [List.length_append, List.length_cons]
      omega
    have h1 : (hrp ++ '1' :: tail).length - 1 - tail.length = hrp.length := by omega
    have h2 : (hrp ++ '1' :: tail).length - tail.length = hrp.length + 1 := by omega
    rw [h1, h2]
    have htake : (hrp ++ '1' :: tail).take hrp.length = hrp := List.take_left hrp _
    have hdrop : (hrp ++ '1' :: tail).drop (hrp.length + 1) = tail := by
      have heq : hrp ++ '1' :: tail = (hrp ++ ['1']) ++ tail := by simp
      have hlen1 : hrp.length + 1 = (hrp ++ ['1']).length := by simp
      rw [heq, hlen1]
      exact List.drop_left _ _
    rw [htake, hdrop]
  · intro a ha
    have hne := h a (List.mem_reverse.mp ha)
    simpa using hne

theorem bech32Decode_bech32Encode (hrp : List Char) (data : List Nat)
    (hd : ∀ w ∈ data, w < 32) :
    bech32Decode (bech32Encode hrp data) = some (hrp, data) := by
  have hall : ∀ w ∈ data ++ bech32Checksum hrp data, w < 32 := by
    intro w hw
    rcases List.mem_append.mp hw with hw | hw
    · exact hd w hw
    · exact bech32Checksum_lt hrp data w hw
  have hnosep : ∀ c ∈ (data ++ bech32Checksum hrp data).map encodeWord, ¬ c = '1' := by
    intro c hc
    rw [List.mem_map] at hc
    obtain ⟨w, hw, rfl⟩ := hc
    exact encodeWord_ne_sep w (hall w hw)
  rw [bech32Encode, bech32Decode, splitAtLastSep_encode hrp _ hnosep]
  dsimp only
  rw [decodeChars_map_encodeWord _ hall]
  dsimp only
  have hckl := bech32Checksum_length hrp data
  have hlen6 : 6 ≤ (data ++ bech32Checksum hrp data).length := by
    simp only [List.length_append, hckl]
    omega
  have hlen : (data ++ bech32Checksum hrp data).length - 6 = data.length := by
    simp only [List.length_append, hckl]
    omega
  have htake : (data ++ bech32Checksum hrp data).take
      ((data ++ bech32Checksum hrp data).length - 6) = data := by
    rw [hlen]
    exact List.take_left data _
  have hdrop : (data ++ bech32Checksum hrp data).drop
      ((data ++ bech32Checksum hrp data).length - 6) = bech32Checksum hrp data := by
    rw [hlen]
    exact List.drop_left data _
  rw [if_pos hlen6, htake, hdrop, if_pos rfl]

/-! ### The nip19 display-encoding wrappers (keys.ts:38-80) -/

def NPUB_HRP : List Char := ['n', 'p', 'u', 'b']

def NSEC_HRP : List Char := ['n', 's', 'e', 'c']

/-- `hexToNpub` (keys.ts:38-40): encodes the hex public key's bytes under the
`npub` prefix; a parse failure (the external encoder throwing) is `none`. -/
def hexToNpub (publicKey : List Char) : Option (List Char) :=
  (hexToBytes publicKey).map (fun bs => bech32Encode NPUB_HRP (toWords bs))

/-- `hexToNsec` (keys.ts:47-50). -/
def hexToNsec (privateKeyHex : List Char) : Option (List Char) :=
  (hexToBytes privateKeyHex).map (fun bs => bech32Encode NSEC_HRP (toWords bs))

/-- `npubToHex` (keys.ts:57-65): decodes and prints the payload in lowercase
hex; malformed input (wrong length, bad checksum or prefix) is `none` (the
source throws "Invalid npub format"). -/
def npubToHex (npub : List Char) : Option (List Char) :=
  match bech32Decode npub with
  | none => none
  | some (hrp, ws) =>
    if hrp = NPUB_HRP then (fromWords ws).map bytesToHex else none

/-- `nsecToHex` (keys.ts:72-80). -/
def nsecToHex (nsec : List Char) : Option (List Char) :=
  match bech32Decode nsec with
  | none => none
  | some (hrp, ws) =>
    if hrp = NSEC_HRP then (fromWords ws).map bytesToHex else none

theorem hexToBytes_lt_256 (s : List Char) (bs : List Nat) (h : hexToBytes s = some bs) :
    ∀ b ∈ bs, b < 256 :=
  hexToBytes_lt_256_aux s.length s (le_refl _) bs h

theorem npubToHex_of_decode (s : List Char) (ws : List Nat)
    (h : bech32Decode s = some (NPUB_HRP, ws)) :
    npubToHex s = (fromWords ws).map bytesToHex := by
  unfold npubToHex
  rw [h]
  dsimp only
  rw [if_pos rfl]

theorem nsecToHex_of_decode (s : List Char) (ws : List Nat)
    (h : bech32Decode s = some (NSEC_HRP, ws)) :
    nsecToHex s = (fromWords ws).map bytesToHex := by
  unfold nsecToHex
  rw [h]
  dsimp only
  rw [if_pos rfl]

/-- **C8**: for every valid public key (64 lowercase hex characters parsing
to 32 bytes), decoding the display encoding yields the original key,
`npubToHex (hexToNpub pk) = pk`, and likewise the nsec pair round-trips on
every valid private key. -/
theorem C8_display_encoding_roundtrip (pk sk : List Char) (bp bsk : List Nat)
    (hp1 : hexToBytes pk = some bp) (hp2 : bp.length = 32) (hp3 : ∀ c ∈ pk, c ∈ LOWHEX)
    (hs1 : hexToBytes sk = some bsk) (hs2 : bsk.length = 32) (hs3 : ∀ c ∈ sk, c ∈ LOWHEX) :
    (hexToNpub pk).bind npubToHex = some pk ∧
    (hexToNsec sk).bind nsecToHex = some sk := by
  constructor
  · rw [hexToNpub, hp1, Option.map_some', Option.some_bind,
      npubToHex_of_decode _ _ (bech32Decode_bech32Encode NPUB_HRP (toWords bp) (toWords_lt bp)),
      fromWords_toWords bp hp2 (hexToBytes_lt_256 pk bp hp1), Option.map_some',
      bytesToHex_hexToBytes pk bp hp1 hp3]
  · rw [hexToNsec, hs1, Option.map_some', Option.some_bind,
      nsecToHex_of_decode _ _ (bech32Decode_bech32Encode NSEC_HRP (toWords bsk) (toWords_lt bsk)),
      fromWords_toWords bsk hs2 (hexToBytes_lt_256 sk bsk hs1), Option.map_some',
      bytesToHex_hexToBytes sk bsk hs1 hs3]

def pkSample : List Char :=
  String.toList "00112233445566778899aabbccddeeff00112233445566778899aabbccddeeff"

def pkSampleBytes : List Nat :=
  [0, 17, 34, 51, 68, 85, 102, 119, 136, 153, 170, 187, 204, 221, 238, 255,
   0, 17, 34, 51, 68, 85, 102, 119, 136, 153, 170, 187, 204, 221, 238, 255]

def skSample : List Char :=
  String.toList "0123456789abcdef0123456789abcdef0123456789abcdef0123456789abcdef"

def skSampleBytes : List Nat :=
  [1, 35, 69, 103, 137, 171, 205, 239, 1, 35, 69, 103, 137, 171, 205, 239,
   1, 35, 69, 103, 137, 171, 205, 239, 1, 35, 69, 103, 137, 171, 205, 239]

/-- Witness for C8 at concrete 32-byte keys. -/
theorem C8_witness :
    (hexToNpub pkSample).bind npubToHex = some pkSample ∧
    (hexToNsec skSample).bind nsecToHex = some skSample :=
  C8_display_encoding_roundtrip pkSample skSample pkSampleBytes skSampleBytes
    (by decide) (by decide) (by decide) (by decide) (by decide) (by decide)
